import Mathlib

/-!
Shallow embedding of the `uvector` crate (`src/lib.rs`): a read-only
dual-segment view `UVec` over two borrowed slices, with indexing, range
sub-view derivation and iteration.  Rust slices are modelled as `List α`;
a Rust panic is modelled as `none` in an `Option` result.
-/

set_option maxHeartbeats 1000000

/-- The view `struct UVec<'a, T> { s: (&'a [T], &'a [T]) }`: field `s1`
models `self.s.0`, field `s2` models `self.s.1`. -/
structure UVec (α : Type) where
  s1 : List α
  s2 : List α
deriving DecidableEq

/-- Rust slice expression `&l[a..b]`: yields the sub-slice when
`a ≤ b ≤ l.len()`, otherwise panics (`none`). -/
def sliceRange {α : Type} (l : List α) (a b : Nat) : Option (List α) :=
  if a ≤ b ∧ b ≤ l.length then some ((l.drop a).take (b - a)) else none

/-- Constructor `UVec::new`. -/
def UVec.new {α : Type} (s1 s2 : List α) : UVec α := ⟨s1, s2⟩

/-- Constructor `UVec::empty`. -/
def UVec.empty {α : Type} : UVec α := ⟨[], []⟩

/-- Method `UVec::len`: `self.s.0.len() + self.s.1.len()`. -/
def UVec.len {α : Type} (v : UVec α) : Nat := v.s1.length + v.s2.length

/-- The `Index<usize>` impl: `if index < len { &self.s.0[index] } else
{ &self.s.1[index - len] }` where `len = self.s.0.len()`; `none` models the
panic of the inner slice indexing. -/
def UVec.index {α : Type} (v : UVec α) (i : Nat) : Option α :=
  let len := v.s1.length
  if i < len then v.s1[i]? else v.s2[i - len]?

/-- Method `UVec::range(start, end)`: clamps the window into each segment and
slices both; the first slice is taken first, as in the source.  `none`
models a panic of either slicing expression. -/
def UVec.range {α : Type} (v : UVec α) (start e : Nat) : Option (UVec α) :=
  let len1 := v.s1.length
  let start1 := if start < len1 then start else len1
  let end1 := if e < len1 then e else len1
  let start2 := if start < len1 then 0 else start - len1
  let end2 := if e < len1 then 0 else e - len1
  (sliceRange v.s1 start1 end1).bind fun f =>
    (sliceRange v.s2 start2 end2).bind fun s =>
      some ⟨f, s⟩

/-- The iterator `struct Iter<'a, T> { pos: usize, s: (&'a [T], &'a [T]) }`. -/
structure Iter (α : Type) where
  pos : Nat
  s1 : List α
  s2 : List α
deriving DecidableEq

/-- Method `UVec::iter`: `Iter { pos: 0, s: self.s }`. -/
def UVec.iter {α : Type} (v : UVec α) : Iter α := ⟨0, v.s1, v.s2⟩

/-- Impl `<UVec as IntoIterator>::into_iter`: `Iter { pos: 0, s: self.s }`. -/
def UVec.intoIter {α : Type} (v : UVec α) : Iter α := ⟨0, v.s1, v.s2⟩

/-- Impl `<&UVec as IntoIterator>::into_iter`: `self.iter()`. -/
def UVec.intoIterRef {α : Type} (v : UVec α) : Iter α := v.iter

/-- Method `Iterator::next` for `Iter`.  The outer `Option` models a panic of the
slice indexing inside the method (`none` = panic); the inner `Option α` is
the Rust return value (`none` = exhaustion signal), paired with the
iterator state after the call. -/
def Iter.next {α : Type} (it : Iter α) : Option (Option α × Iter α) :=
  let len1 := it.s1.length
  let pos := it.pos
  if pos < len1 then
    match it.s1[pos]? with
    | some a => some (some a, ⟨pos + 1, it.s1, it.s2⟩)
    | none => none
  else
    let len2 := it.s2.length
    if pos < len1 + len2 then
      match it.s2[pos - len1]? with
      | some a => some (some a, ⟨pos + 1, it.s1, it.s2⟩)
      | none => none
    else
      some (none, it)

/-- The list of elements yielded by repeatedly calling `next` up to `fuel`
times, stopping at exhaustion (or at a panic, which the safety lemmas rule
out for reachable iterators). -/
def Iter.collect {α : Type} : Nat → Iter α → List α
  | 0, _ => []
  | fuel + 1, it =>
    match it.next with
    | some (some a, it2) => a :: Iter.collect fuel it2
    | _ => []

/-- The iterator state after `n` calls to `next` (a panicking or absent
step leaves the state as is). -/
def Iter.after {α : Type} (it : Iter α) : Nat → Iter α
  | 0 => it
  | n + 1 =>
    match (Iter.after it n).next with
    | some (_, it2) => it2
    | none => Iter.after it n

/-- The logical contents of a view: first segment then second segment. -/
def UVec.toList {α : Type} (v : UVec α) : List α := v.s1 ++ v.s2

/-! ### Basic lemmas about the model -/

theorem UVec.len_toList {α : Type} (v : UVec α) : v.len = v.toList.length := by
  simp [UVec.len, UVec.toList]

theorem UVec.index_eq_getElem? {α : Type} (v : UVec α) (i : Nat) :
    v.index i = v.toList[i]? := by
  unfold UVec.index UVec.toList
  by_cases h : i < v.s1.length
  · rw [if_pos h, List.getElem?_append_left h]
  · rw [if_neg h, List.getElem?_append_right (Nat.le_of_not_lt h)]

/-! ### Characterization of `Iter.next` -/

theorem Iter.next_of_lt_first {α : Type} (it : Iter α) (h : it.pos < it.s1.length) :
    it.next = some (some it.s1[it.pos], ⟨it.pos + 1, it.s1, it.s2⟩) := by
  unfold Iter.next
  rw [if_pos h, List.getElem?_eq_getElem h]

theorem Iter.next_of_second {α : Type} (it : Iter α) (h1 : it.s1.length ≤ it.pos)
    (h2 : it.pos < it.s1.length + it.s2.length) :
    it.next = some (some (it.s2.get ⟨it.pos - it.s1.length, by omega⟩),
      ⟨it.pos + 1, it.s1, it.s2⟩) := by
  unfold Iter.next
  rw [if_neg (by omega), if_pos h2,
    List.getElem?_eq_getElem (show it.pos - it.s1.length < it.s2.length by omega)]
  rfl

theorem Iter.next_of_exhausted {α : Type} (it : Iter α)
    (h : it.s1.length + it.s2.length ≤ it.pos) :
    it.next = some (none, it) := by
  unfold Iter.next
  rw [if_neg (by omega), if_neg (by omega)]

theorem Iter.next_pos_lt {α : Type} (it : Iter α)
    (h : it.pos < it.s1.length + it.s2.length) :
    ∃ a, it.next = some (some a, ⟨it.pos + 1, it.s1, it.s2⟩) := by
  by_cases h1 : it.pos < it.s1.length
  · exact ⟨_, it.next_of_lt_first h1⟩
  · exact ⟨_, it.next_of_second (by omega) h⟩

theorem Iter.collect_succ_of_yield {α : Type} (fuel : Nat) {it it2 : Iter α} {a : α}
    (h : it.next = some (some a, it2)) :
    Iter.collect (fuel + 1) it = a :: Iter.collect fuel it2 := by
  rw [Iter.collect, h]

theorem Iter.collect_succ_of_exhausted {α : Type} (fuel : Nat) {it it2 : Iter α}
    (h : it.next = some (none, it2)) :
    Iter.collect (fuel + 1) it = [] := by
  rw [Iter.collect, h]

theorem Iter.collect_of_le {α : Type} :
    ∀ (fuel : Nat) (it : Iter α), it.s1.length + it.s2.length ≤ it.pos + fuel →
      Iter.collect fuel it = (it.s1 ++ it.s2).drop it.pos := by
  intro fuel
  induction fuel with
  | zero =>
    intro it h
    rw [Iter.collect, eq_comm, List.drop_eq_nil_iff]
    simp
    omega
  | succ n ih =>
    intro it h
    have hlen : ((it.s1 ++ it.s2).length = it.s1.length + it.s2.length) := by simp
    have ih2 : Iter.collect n (⟨it.pos + 1, it.s1, it.s2⟩ : Iter α)
        = (it.s1 ++ it.s2).drop (it.pos + 1) := by
      have h3 : (⟨it.pos + 1, it.s1, it.s2⟩ : Iter α).s1.length
          + (⟨it.pos + 1, it.s1, it.s2⟩ : Iter α).s2.length
          ≤ (⟨it.pos + 1, it.s1, it.s2⟩ : Iter α).pos + n := by
        show it.s1.length + it.s2.length ≤ it.pos + 1 + n
        omega
      exact ih _ h3
    by_cases hp : it.pos < it.s1.length + it.s2.length
    · obtain ⟨a, ha⟩ := it.next_pos_lt hp
      rw [Iter.collect_succ_of_yield n ha, ih2,
        List.drop_eq_getElem_cons (show it.pos < (it.s1 ++ it.s2).length by omega)]
      congr 1
      by_cases h1 : it.pos < it.s1.length
      · rw [it.next_of_lt_first h1] at ha
        have hpr := Option.some.inj ha
        have hval : some it.s1[it.pos] = some a := congrArg Prod.fst hpr
        rw [List.getElem_append_left h1]
        exact (Option.some.inj hval).symm
      · rw [it.next_of_second (by omega) hp] at ha
        have hpr := Option.some.inj ha
        have hval := congrArg Prod.fst hpr
        rw [List.getElem_append_right (by omega)]
        exact (Option.some.inj hval).symm
    · rw [Iter.collect_succ_of_exhausted n (it.next_of_exhausted (by omega)),
        eq_comm, List.drop_eq_nil_iff]
      simp
      omega

/-! ### Characterization of `UVec.range` -/

theorem UVec.range_eq_of_valid {α : Type} (v : UVec α) (s e : Nat)
    (h1 : s ≤ e) (h2 : e ≤ v.len) :
    v.range s e = some
      ⟨(v.s1.drop (min s v.s1.length)).take (min e v.s1.length - min s v.s1.length),
       (v.s2.drop (s - v.s1.length)).take ((e - v.s1.length) - (s - v.s1.length))⟩ := by
  have hlen : e ≤ v.s1.length + v.s2.length := h2
  have hA : (if s < v.s1.length then s else v.s1.length) = min s v.s1.length := by
    split <;> omega
  have hB : (if e < v.s1.length then e else v.s1.length) = min e v.s1.length := by
    split <;> omega
  have hC : (if s < v.s1.length then 0 else s - v.s1.length) = s - v.s1.length := by
    split <;> omega
  have hD : (if e < v.s1.length then 0 else e - v.s1.length) = e - v.s1.length := by
    split <;> omega
  have hfirst : sliceRange v.s1 (min s v.s1.length) (min e v.s1.length)
      = some ((v.s1.drop (min s v.s1.length)).take (min e v.s1.length - min s v.s1.length)) := by
    unfold sliceRange
    rw [if_pos]
    constructor <;> omega
  have hsecond : sliceRange v.s2 (s - v.s1.length) (e - v.s1.length)
      = some ((v.s2.drop (s - v.s1.length)).take ((e - v.s1.length) - (s - v.s1.length))) := by
    unfold sliceRange
    rw [if_pos]
    constructor <;> omega
  simp only [UVec.range, hA, hB, hC, hD, hfirst, hsecond, Option.some_bind]

theorem sliceAppend {α : Type} (l1 l2 : List α) (s e : Nat)
    (h1 : s ≤ e) (_h2 : e ≤ l1.length + l2.length) :
    (l1.drop (min s l1.length)).take (min e l1.length - min s l1.length)
      ++ (l2.drop (s - l1.length)).take ((e - l1.length) - (s - l1.length))
    = ((l1 ++ l2).drop s).take (e - s) := by
  rw [List.drop_append_eq_append_drop, List.take_append_eq_append_take]
  congr 1
  · by_cases hs : s ≤ l1.length
    · rw [Nat.min_eq_left hs, List.take_eq_take]
      simp only [List.length_drop]
      omega
    · rw [Nat.min_eq_right (show l1.length ≤ s by omega),
        Nat.min_eq_right (show l1.length ≤ e by omega), Nat.sub_self, List.take_zero,
        List.drop_eq_nil_of_le (show l1.length ≤ s by omega), List.take_nil]
  · congr 1
    simp only [List.length_drop]
    omega

theorem UVec.range_toList {α : Type} {v : UVec α} {s e : Nat}
    (h1 : s ≤ e) (h2 : e ≤ v.len) {w : UVec α} (hw : v.range s e = some w) :
    w.toList = (v.toList.drop s).take (e - s) := by
  rw [UVec.range_eq_of_valid v s e h1 h2] at hw
  have hw2 := Option.some.inj hw
  subst hw2
  have hlen : e ≤ v.s1.length + v.s2.length := h2
  show (v.s1.drop (min s v.s1.length)).take (min e v.s1.length - min s v.s1.length)
      ++ (v.s2.drop (s - v.s1.length)).take ((e - v.s1.length) - (s - v.s1.length))
    = ((v.s1 ++ v.s2).drop s).take (e - s)
  exact sliceAppend v.s1 v.s2 s e h1 hlen

theorem UVec.range_len_of_valid {α : Type} {v : UVec α} {s e : Nat}
    (h1 : s ≤ e) (h2 : e ≤ v.len) {w : UVec α} (hw : v.range s e = some w) :
    w.len = e - s := by
  rw [UVec.len_toList, UVec.range_toList h1 h2 hw]
  rw [UVec.len_toList] at h2
  simp only [List.length_take, List.length_drop]
  omega

theorem UVec.range_index_of_valid {α : Type} {v : UVec α} {s e : Nat}
    (h1 : s ≤ e) (h2 : e ≤ v.len) {w : UVec α} (hw : v.range s e = some w)
    {j : Nat} (hj : j < e - s) :
    w.index j = v.index (s + j) := by
  rw [UVec.index_eq_getElem?, UVec.index_eq_getElem?, UVec.range_toList h1 h2 hw,
    List.getElem?_take_of_lt hj, List.getElem?_drop]

theorem Iter.after_iter {α : Type} (v : UVec α) :
    ∀ n, n ≤ v.len → Iter.after v.iter n = ⟨n, v.s1, v.s2⟩ := by
  intro n
  induction n with
  | zero => intro _; rfl
  | succ m ih =>
    intro h
    have hm : m ≤ v.len := by omega
    have hlt : m < v.s1.length + v.s2.length := h
    rw [Iter.after, ih hm]
    obtain ⟨a, ha⟩ := Iter.next_pos_lt (⟨m, v.s1, v.s2⟩ : Iter α) hlt
    rw [ha]

/-! ### Claim theorems -/

/-- C2: For every view built from segments `(first, second)`, `len()` returns
`len(first) + len(second)` (a pure total function), and indexed access
translates logical indices per the data-model invariant: `view[i] = first[i]`
for `i < len(first)`, and `view[i] = second[i - len(first)]` for
`len(first) ≤ i < len()`; on that domain it never fails. -/
theorem len_and_index_mapping {α : Type} (v : UVec α) :
    v.len = v.s1.length + v.s2.length ∧
    (∀ i, i < v.s1.length → v.index i = v.s1[i]?) ∧
    (∀ i, v.s1.length ≤ i → i < v.len → v.index i = v.s2[i - v.s1.length]?) ∧
    (∀ i, i < v.len → v.index i ≠ none) := by
  refine ⟨rfl, ?_, ?_, ?_⟩
  · intro i hi
    unfold UVec.index
    rw [if_pos hi]
  · intro i hi1 _
    unfold UVec.index
    rw [if_neg (by omega)]
  · intro i hi
    rw [UVec.index_eq_getElem?]
    rw [UVec.len_toList] at hi
    simp only [ne_eq, List.getElem?_eq_none_iff]
    omega

theorem len_and_index_mapping_witness :
    (UVec.mk [5, 10, 15] [20, 25]).len = 5 ∧
    (UVec.mk [5, 10, 15] [20, 25]).index 2 = some 15 ∧
    (UVec.mk [5, 10, 15] [20, 25]).index 3 = some 20 := by
  have h := len_and_index_mapping (UVec.mk [5, 10, 15] [20, 25])
  refine ⟨h.1, ?_, ?_⟩
  · rw [h.2.1 2 (by decide)]
    decide
  · rw [h.2.2.1 3 (by decide) (by decide)]
    decide

/-- C3: Indexed access `view[i]` panics if and only if `i ≥ len()` (the
panic is modelled as the `none` result), and for every `i < len()` it
returns an element without failing. -/
theorem index_panics_iff_oob {α : Type} (v : UVec α) :
    (∀ i, v.index i = none ↔ v.len ≤ i) ∧
    (∀ i, i < v.len → ∃ x, v.index i = some x) := by
  have hiff : ∀ i, v.index i = none ↔ v.len ≤ i := by
    intro i
    rw [UVec.index_eq_getElem?, List.getElem?_eq_none_iff, UVec.len_toList]
  refine ⟨hiff, fun i hi => ?_⟩
  rcases ho : v.index i with _ | x
  · exact absurd ((hiff i).mp ho) (by omega)
  · exact ⟨x, rfl⟩

theorem index_panics_iff_oob_witness :
    ∃ x, (UVec.mk [1, 2] ([] : List Nat)).index 1 = some x :=
  (index_panics_iff_oob (UVec.mk [1, 2] ([] : List Nat))).2 1 (by decide)

/-- C8: Consuming a view by value, iterating a reference to it, and calling
`iter()` all produce the same iterator: position 0 over the same two
segments, hence the same yielded sequence for any number of steps. -/
theorem into_iter_forms_agree {α : Type} (v : UVec α) :
    v.intoIter = v.iter ∧ v.intoIterRef = v.iter ∧ v.iter.pos = 0 ∧
    v.iter.s1 = v.s1 ∧ v.iter.s2 = v.s2 ∧
    ∀ fuel, Iter.collect fuel v.intoIter = Iter.collect fuel v.iter ∧
      Iter.collect fuel v.intoIterRef = Iter.collect fuel v.iter :=
  ⟨rfl, rfl, rfl, rfl, rfl, fun _ => ⟨rfl, rfl⟩⟩

/-- C9: `next` is total (never hits the panicking slice accesses) for every
iterator satisfying the invariant `pos ≤ len(first) + len(second)`; the
invariant holds at `pos = 0` (fresh iterators) and is preserved by `next`,
which also leaves the segments unchanged. -/
theorem iter_next_total_invariant {α : Type} (v : UVec α) (it : Iter α)
    (h : it.pos ≤ it.s1.length + it.s2.length) :
    v.iter.pos = 0 ∧ v.iter.pos ≤ v.iter.s1.length + v.iter.s2.length ∧
    v.intoIter.pos = 0 ∧
    ∃ r it2, it.next = some (r, it2) ∧ it2.pos ≤ it2.s1.length + it2.s2.length ∧
      it2.s1 = it.s1 ∧ it2.s2 = it.s2 := by
  refine ⟨rfl, Nat.zero_le _, rfl, ?_⟩
  by_cases hp : it.pos < it.s1.length + it.s2.length
  · obtain ⟨a, ha⟩ := it.next_pos_lt hp
    refine ⟨some a, _, ha, ?_, rfl, rfl⟩
    show it.pos + 1 ≤ it.s1.length + it.s2.length
    omega
  · exact ⟨none, it, it.next_of_exhausted (by omega), by omega, rfl, rfl⟩

theorem iter_next_total_invariant_witness :
    (UVec.mk [1] [2]).iter.pos = 0 ∧
    (UVec.mk [1] [2]).iter.pos ≤ (UVec.mk [1] [2]).iter.s1.length + (UVec.mk [1] [2]).iter.s2.length ∧
    (UVec.mk [1] [2]).intoIter.pos = 0 ∧
    ∃ r it2, (Iter.mk 1 [1] [2]).next = some (r, it2) ∧
      it2.pos ≤ it2.s1.length + it2.s2.length ∧
      it2.s1 = (Iter.mk 1 [1] [2]).s1 ∧ it2.s2 = (Iter.mk 1 [1] [2]).s2 :=
  iter_next_total_invariant (UVec.mk [1] [2]) (Iter.mk 1 [1] [2]) (by decide)

/-- C1: For every view `v` and all `start ≤ end ≤ v.len()`, `v.range(start, end)`
returns a new view of length `end - start` whose `j`-th element equals
`v[start + j]` for every `j < end - start`; its segments are computed by the
clamping split `start1 = min(start, len1)`, `end1 = min(end, len1)`,
`start2 = (start < len1 ? 0 : start - len1)`, `end2 = (end < len1 ? 0 : end - len1)`
with `len1 = len(first)`, taking `first[start1..end1]` and `second[start2..end2]`. -/
theorem range_window_spec {α : Type} (v : UVec α) (s e : Nat)
    (h1 : s ≤ e) (h2 : e ≤ v.len) :
    ∃ w, v.range s e = some w ∧ w.len = e - s ∧
      (∀ j, j < e - s → w.index j = v.index (s + j)) ∧
      w.s1 = (v.s1.drop (min s v.s1.length)).take (min e v.s1.length - min s v.s1.length) ∧
      w.s2 = (v.s2.drop (if s < v.s1.length then 0 else s - v.s1.length)).take
        ((if e < v.s1.length then 0 else e - v.s1.length)
          - (if s < v.s1.length then 0 else s - v.s1.length)) := by
  have hw := UVec.range_eq_of_valid v s e h1 h2
  refine ⟨_, hw, UVec.range_len_of_valid h1 h2 hw,
    fun j hj => UVec.range_index_of_valid h1 h2 hw hj, rfl, ?_⟩
  have hC : (if s < v.s1.length then 0 else s - v.s1.length) = s - v.s1.length := by
    split <;> omega
  have hD : (if e < v.s1.length then 0 else e - v.s1.length) = e - v.s1.length := by
    split <;> omega
  rw [hC, hD]

theorem range_window_spec_witness :
    ∃ w, (UVec.mk [1, 2, 3] [4, 5, 6]).range 1 5 = some w ∧ w.len = 5 - 1 ∧
      (∀ j, j < 5 - 1 → w.index j = (UVec.mk [1, 2, 3] [4, 5, 6]).index (1 + j)) ∧
      w.s1 = ((UVec.mk [1, 2, 3] [4, 5, 6]).s1.drop
          (min 1 (UVec.mk [1, 2, 3] [4, 5, 6]).s1.length)).take
        (min 5 (UVec.mk [1, 2, 3] [4, 5, 6]).s1.length
          - min 1 (UVec.mk [1, 2, 3] [4, 5, 6]).s1.length) ∧
      w.s2 = ((UVec.mk [1, 2, 3] [4, 5, 6]).s2.drop
          (if 1 < (UVec.mk [1, 2, 3] [4, 5, 6]).s1.length then 0
           else 1 - (UVec.mk [1, 2, 3] [4, 5, 6]).s1.length)).take
        ((if 5 < (UVec.mk [1, 2, 3] [4, 5, 6]).s1.length then 0
          else 5 - (UVec.mk [1, 2, 3] [4, 5, 6]).s1.length)
          - (if 1 < (UVec.mk [1, 2, 3] [4, 5, 6]).s1.length then 0
             else 1 - (UVec.mk [1, 2, 3] [4, 5, 6]).s1.length)) :=
  range_window_spec (UVec.mk [1, 2, 3] [4, 5, 6]) 1 5 (by decide) (by decide)

/-- C4: `range(start, end)` panics (modelled as `none`) if and only if
`start > end` or `end > len()`; under the precondition it always succeeds,
and every zero-length range `range(k, k)` with `k ≤ len()` yields a valid
empty view whose two derived segments both have length 0. -/
theorem range_panics_iff_invalid {α : Type} (v : UVec α) :
    (∀ s e, v.range s e = none ↔ (e < s ∨ v.len < e)) ∧
    (∀ k, k ≤ v.len → ∃ w, v.range k k = some w ∧ w.len = 0 ∧
      w.s1.length = 0 ∧ w.s2.length = 0) := by
  constructor
  · intro s e
    constructor
    · intro hn
      by_contra hc
      push_neg at hc
      obtain ⟨hse, hel⟩ := hc
      rw [UVec.range_eq_of_valid v s e hse hel] at hn
      exact Option.noConfusion hn
    · intro h
      rcases Nat.lt_or_ge e s with hes | hse
      · by_cases hs : s < v.s1.length
        · have he : e < v.s1.length := by omega
          simp [UVec.range, sliceRange, hs, he, show ¬ s ≤ e by omega]
        · by_cases he : e < v.s1.length
          · simp [UVec.range, sliceRange, hs, he, show ¬ v.s1.length ≤ e by omega]
          · simp [UVec.range, sliceRange, hs, he,
              show ¬ s - v.s1.length ≤ e - v.s1.length by omega]
      · have hle : v.s1.length + v.s2.length < e := by
          rcases h with h | h
          · omega
          · simpa [UVec.len] using h
        have he : ¬ e < v.s1.length := by omega
        by_cases hs : s < v.s1.length
        · simp [UVec.range, sliceRange, hs, he,
            show ¬ e - v.s1.length ≤ v.s2.length by omega]
        · simp [UVec.range, sliceRange, hs, he,
            show ¬ e - v.s1.length ≤ v.s2.length by omega]
  · intro k hk
    have hw := UVec.range_eq_of_valid v k k (le_refl k) hk
    refine ⟨_, hw, ?_, ?_, ?_⟩
    · simpa using UVec.range_len_of_valid (le_refl k) hk hw
    · simp
    · simp

theorem range_panics_iff_invalid_witness :
    ∃ w, (UVec.mk [1, 2, 3] [4, 5, 6]).range 4 4 = some w ∧ w.len = 0 ∧
      w.s1.length = 0 ∧ w.s2.length = 0 :=
  (range_panics_iff_invalid (UVec.mk [1, 2, 3] [4, 5, 6])).2 4 (by decide)

/-- C5: The iterator produced by `iter()` yields exactly `len()` elements
(extra polling fuel adds nothing), the `j`-th yielded element equals `v[j]`
for every `j < len()`, and after `len()` steps the iterator signals
exhaustion. -/
theorem iter_agrees_with_index {α : Type} (v : UVec α) (extra : Nat) :
    (Iter.collect (v.len + extra) v.iter).length = v.len ∧
    (∀ j, j < v.len → (Iter.collect (v.len + extra) v.iter)[j]? = v.index j) ∧
    (Iter.after v.iter v.len).next = some (none, Iter.after v.iter v.len) := by
  have h0 : (v.iter).s1.length + (v.iter).s2.length ≤ (v.iter).pos + (v.len + extra) := by
    show v.s1.length + v.s2.length ≤ 0 + (v.len + extra)
    simp only [UVec.len]
    omega
  have hc := Iter.collect_of_le (v.len + extra) v.iter h0
  rw [show ((v.iter.s1 ++ v.iter.s2).drop v.iter.pos) = v.toList from by
    simp [UVec.iter, UVec.toList]] at hc
  refine ⟨?_, ?_, ?_⟩
  · rw [hc]
    exact (UVec.len_toList v).symm
  · intro j hj
    rw [hc, UVec.index_eq_getElem?]
  · rw [Iter.after_iter v v.len (le_refl _)]
    refine Iter.next_of_exhausted _ ?_
    show v.s1.length + v.s2.length ≤ v.len
    simp [UVec.len]

theorem iter_agrees_with_index_witness :
    (Iter.collect ((UVec.mk [1, 2, 3] [4, 5, 6]).len + 2) (UVec.mk [1, 2, 3] [4, 5, 6]).iter).length
      = (UVec.mk [1, 2, 3] [4, 5, 6]).len ∧
    (∀ j, j < (UVec.mk [1, 2, 3] [4, 5, 6]).len →
      (Iter.collect ((UVec.mk [1, 2, 3] [4, 5, 6]).len + 2) (UVec.mk [1, 2, 3] [4, 5, 6]).iter)[j]?
        = (UVec.mk [1, 2, 3] [4, 5, 6]).index j) ∧
    (Iter.after (UVec.mk [1, 2, 3] [4, 5, 6]).iter (UVec.mk [1, 2, 3] [4, 5, 6]).len).next
      = some (none, Iter.after (UVec.mk [1, 2, 3] [4, 5, 6]).iter (UVec.mk [1, 2, 3] [4, 5, 6]).len) :=
  iter_agrees_with_index (UVec.mk [1, 2, 3] [4, 5, 6]) 2

/-- C6: `v.range(0, v.len())` is element-wise equal to `v` (same length,
equal result of indexing everywhere), and `v.range(k, k)` is an empty view
for every `k ≤ v.len()`. -/
theorem range_full_and_empty {α : Type} (v : UVec α) :
    (∃ w, v.range 0 v.len = some w ∧ w.len = v.len ∧ ∀ i, w.index i = v.index i) ∧
    (∀ k, k ≤ v.len → ∃ w, v.range k k = some w ∧ w.len = 0) := by
  constructor
  · have hw := UVec.range_eq_of_valid v 0 v.len (Nat.zero_le _) (le_refl _)
    refine ⟨_, hw, ?_, ?_⟩
    · simpa using UVec.range_len_of_valid (Nat.zero_le _) (le_refl _) hw
    · intro i
      have hm := UVec.range_toList (Nat.zero_le _) (le_refl _) hw
      rw [UVec.index_eq_getElem?, UVec.index_eq_getElem?, hm, List.drop_zero,
        Nat.sub_zero, List.take_of_length_le (UVec.len_toList v).ge]
  · intro k hk
    have hw := UVec.range_eq_of_valid v k k (le_refl k) hk
    exact ⟨_, hw, by simpa using UVec.range_len_of_valid (le_refl k) hk hw⟩

theorem range_full_and_empty_witness :
    ∃ w, (UVec.mk [1, 2] [3]).range 1 1 = some w ∧ w.len = 0 :=
  (range_full_and_empty (UVec.mk [1, 2] [3])).2 1 (by decide)

/-- C7: `next` signals exhaustion while leaving the state unchanged exactly
when `pos ≥ len(first) + len(second)`; once exhausted, every subsequent
`next` call leaves the iterator unchanged and keeps signalling exhaustion,
without failing. -/
theorem iter_exhaustion_persistent {α : Type} (it : Iter α) :
    (it.next = some (none, it) ↔ it.s1.length + it.s2.length ≤ it.pos) ∧
    (it.s1.length + it.s2.length ≤ it.pos →
      (∀ n, Iter.after it n = it) ∧
      ∀ n, (Iter.after it n).next = some (none, Iter.after it n)) := by
  have hafter : it.s1.length + it.s2.length ≤ it.pos → ∀ n, Iter.after it n = it := by
    intro h n
    induction n with
    | zero => rfl
    | succ m ih => rw [Iter.after, ih, Iter.next_of_exhausted it h]
  constructor
  · constructor
    · intro hn
      by_contra hc
      obtain ⟨a, ha⟩ := it.next_pos_lt (by omega)
      rw [ha] at hn
      have h2 := congrArg Prod.fst (Option.some.inj hn)
      exact Option.noConfusion h2
    · exact Iter.next_of_exhausted it
  · intro h
    refine ⟨hafter h, fun n => ?_⟩
    rw [hafter h n]
    exact Iter.next_of_exhausted it h

theorem iter_exhaustion_persistent_witness :
    (∀ n, Iter.after (Iter.mk 5 [1] [2, 3]) n = (Iter.mk 5 [1] [2, 3] : Iter Nat)) ∧
    ∀ n, (Iter.after (Iter.mk 5 [1] [2, 3] : Iter Nat) n).next
      = some (none, Iter.after (Iter.mk 5 [1] [2, 3]) n) :=
  (iter_exhaustion_persistent (Iter.mk 5 [1] [2, 3])).2 (by decide)

/-- C10: `range` composes — for all `a ≤ b ≤ v.len()` and `c ≤ d ≤ b - a`,
the nested sub-view `v.range(a, b).range(c, d)` is element-wise equal (same
length `d - c`, equal result of indexing at every index) to the directly
derived sub-view `v.range(a + c, a + d)`. -/
theorem range_compose {α : Type} (v : UVec α) (a b c d : Nat)
    (hab : a ≤ b) (hb : b ≤ v.len) (hcd : c ≤ d) (hd : d ≤ b - a) :
    ∃ w u u2, v.range a b = some w ∧ w.range c d = some u ∧
      v.range (a + c) (a + d) = some u2 ∧ u.len = d - c ∧ u2.len = d - c ∧
      ∀ j, j < d - c → u.index j = u2.index j := by
  obtain ⟨w, hw⟩ : ∃ w, v.range a b = some w :=
    ⟨_, UVec.range_eq_of_valid v a b hab hb⟩
  have hwlen : w.len = b - a := UVec.range_len_of_valid hab hb hw
  have hd2 : d ≤ w.len := by omega
  obtain ⟨u, hu⟩ : ∃ u, w.range c d = some u :=
    ⟨_, UVec.range_eq_of_valid w c d hcd hd2⟩
  have hulen : u.len = d - c := UVec.range_len_of_valid hcd hd2 hu
  have hac : a + c ≤ a + d := by omega
  have had : a + d ≤ v.len := by omega
  obtain ⟨u2, hu2⟩ : ∃ u2, v.range (a + c) (a + d) = some u2 :=
    ⟨_, UVec.range_eq_of_valid v (a + c) (a + d) hac had⟩
  have hu2len : u2.len = d - c := by
    have := UVec.range_len_of_valid hac had hu2
    omega
  refine ⟨w, u, u2, hw, hu, hu2, hulen, hu2len, fun j hj => ?_⟩
  have e1 : u.index j = w.index (c + j) :=
    UVec.range_index_of_valid hcd hd2 hu (by omega)
  have e2 : w.index (c + j) = v.index (a + (c + j)) :=
    UVec.range_index_of_valid hab hb hw (by omega)
  have e3 : u2.index j = v.index ((a + c) + j) :=
    UVec.range_index_of_valid hac had hu2 (by omega)
  rw [e1, e2, e3, Nat.add_assoc]

theorem range_compose_witness :
    ∃ w u u2, (UVec.mk [1, 2, 3] [4, 5, 6]).range 1 5 = some w ∧
      w.range 1 3 = some u ∧
      (UVec.mk [1, 2, 3] [4, 5, 6]).range (1 + 1) (1 + 3) = some u2 ∧
      u.len = 3 - 1 ∧ u2.len = 3 - 1 ∧
      ∀ j, j < 3 - 1 → u.index j = u2.index j :=
  range_compose (UVec.mk [1, 2, 3] [4, 5, 6]) 1 5 1 3
    (by decide) (by decide) (by decide) (by decide)
